import Mathlib

/-!
Verification of the convolution core of the `conv_benchmark` package
(`conv_benchmark/utils/graphconv.py` and `conv_benchmark/utils/sampling.py`).

Tensors are embedded as functions over `Fin`-indexed axes with exact rational
entries (the Python code computes with floating point; we model the intended
exact arithmetic).  Reshape/permute/view operations are embedded as index
arithmetic: a `view` of a `[A, B]` axis pair into a flat `A*B` axis sends the
flat index `j` to the pair `(j / B, j % B)` (row-major layout, as in torch).
-/

/-! ### Fin index arithmetic for torch `view`/`reshape` flattening -/

/-- `0 < b` whenever `Fin (a * b)` is inhabited. -/
theorem fin_mul_right_pos {a b : ℕ} (j : Fin (a * b)) : 0 < b := by
  rcases Nat.eq_zero_or_pos b with h | h
  · exact absurd j.isLt (by simp [h])
  · exact h

/-- First component of the row-major unflattening of `Fin (a * b)`. -/
def finDivK {a b : ℕ} (j : Fin (a * b)) : Fin a :=
  ⟨j.val / b, (Nat.div_lt_iff_lt_mul (fin_mul_right_pos j)).2 j.isLt⟩

/-- Second component of the row-major unflattening of `Fin (a * b)`. -/
def finModK {a b : ℕ} (j : Fin (a * b)) : Fin b :=
  ⟨j.val % b, Nat.mod_lt _ (fin_mul_right_pos j)⟩

/-- Row-major flattening of an index pair, `(k, w) ↦ k * b + w`. -/
def finCombine {a b : ℕ} (k : Fin a) (w : Fin b) : Fin (a * b) :=
  ⟨k.val * b + w.val, by
    calc k.val * b + w.val < k.val * b + b := Nat.add_lt_add_left w.isLt _
    _ = (k.val + 1) * b := (Nat.succ_mul _ _).symm
    _ ≤ a * b := Nat.mul_le_mul_right _ k.isLt⟩

/-! ### Chebyshev basis projection (`graphconv.py`, `project_cheb_basis`,
`project_cheb_basis_dense`, lines 464-506)

The Python function accumulates the stacked basis `[K, V, D]` by repeated
`torch.cat`; we embed the accumulator as a `List` of `V×D` matrices and the
loop `for _ in range(2, K)` as structural recursion on the remaining
iteration count. -/

/-- The loop body of `project_cheb_basis`: given the accumulated list and the
last two iterates (`x0`, `x1` in the source), perform
`x2 = 2 * L @ x1 - x0`, append, and shift the state, `n` more times. -/
def chebGo {V D : ℕ} (L : Matrix (Fin V) (Fin V) ℚ) :
    List (Matrix (Fin V) (Fin D) ℚ) → Matrix (Fin V) (Fin D) ℚ →
    Matrix (Fin V) (Fin D) ℚ → ℕ → List (Matrix (Fin V) (Fin D) ℚ)
  | acc, _, _, 0 => acc
  | acc, xa, xb, n + 1 =>
      chebGo L (acc ++ [(2 : ℚ) • (L * xb) - xa]) xb ((2 : ℚ) • (L * xb) - xa) n

/-- `project_cheb_basis(laplacian, x0, K)`: the stacked Chebyshev basis.
Mirrors the source: start with `[x0]`; if `K > 1` append `x1 = L @ x0` and run
the three-term recurrence loop for `range(2, K)`. -/
def project_cheb_basis {V D : ℕ} (L : Matrix (Fin V) (Fin V) ℚ)
    (x0 : Matrix (Fin V) (Fin D) ℚ) (K : ℕ) : List (Matrix (Fin V) (Fin D) ℚ) :=
  if 1 < K then chebGo L [x0, L * x0] x0 (L * x0) (K - 2) else [x0]

/-- `project_cheb_basis_dense`: identical to `project_cheb_basis` except that
the source uses `torch.mm` instead of `torch.sparse.mm`; both are matrix
multiplication in exact arithmetic. -/
def project_cheb_basis_dense {V D : ℕ} (L : Matrix (Fin V) (Fin V) ℚ)
    (x0 : Matrix (Fin V) (Fin D) ℚ) (K : ℕ) : List (Matrix (Fin V) (Fin D) ℚ) :=
  if 1 < K then chebGo L [x0, L * x0] x0 (L * x0) (K - 2) else [x0]

/-- Closed form of the three-term Chebyshev iterates, used to reason about the
accumulating loop. -/
def chebT {V D : ℕ} (L : Matrix (Fin V) (Fin V) ℚ)
    (x0 : Matrix (Fin V) (Fin D) ℚ) : ℕ → Matrix (Fin V) (Fin D) ℚ
  | 0 => x0
  | 1 => L * x0
  | k + 2 => (2 : ℚ) • (L * chebT L x0 (k + 1)) - chebT L x0 k

theorem chebGo_spec {V D : ℕ} (L : Matrix (Fin V) (Fin V) ℚ)
    (x0 : Matrix (Fin V) (Fin D) ℚ) :
    ∀ (n m : ℕ) (acc : List (Matrix (Fin V) (Fin D) ℚ)),
      chebGo L acc (chebT L x0 m) (chebT L x0 (m + 1)) n =
        acc ++ (List.range n).map (fun i => chebT L x0 (m + 2 + i)) := by
  intro n
  induction n with
  | zero => intro m acc; simp [chebGo]
  | succ n ih =>
      intro m acc
      have hstep : (2 : ℚ) • (L * chebT L x0 (m + 1)) - chebT L x0 m =
          chebT L x0 (m + 2) := rfl
      rw [chebGo, hstep]
      have := ih (m + 1) (acc ++ [chebT L x0 (m + 2)])
      rw [this, List.range_succ_eq_map]
      simp only [List.map_cons, List.map_map, Function.comp, List.append_assoc,
        List.cons_append, List.nil_append, List.singleton_append, List.append_cancel_left_eq]
      simp only [List.cons.injEq, true_and]
      apply List.map_congr_left
      intro i _
      show chebT L x0 (m + 1 + 2 + i) = chebT L x0 (m + 2 + (i + 1))
      have h : m + 1 + 2 + i = m + 2 + (i + 1) := by omega
      rw [h]

/-- The list produced by `project_cheb_basis` is `[chebT 0, …, chebT (K-1)]`. -/
theorem project_cheb_basis_eq_range {V D : ℕ} (L : Matrix (Fin V) (Fin V) ℚ)
    (x0 : Matrix (Fin V) (Fin D) ℚ) (K : ℕ) (hK : 1 ≤ K) :
    project_cheb_basis L x0 K = (List.range K).map (chebT L x0) := by
  unfold project_cheb_basis
  by_cases h : 1 < K
  · rw [if_pos h]
    have h0 : chebT L x0 0 = x0 := rfl
    have h1 : chebT L x0 1 = L * x0 := rfl
    have := chebGo_spec L x0 (K - 2) 0 [x0, L * x0]
    rw [h0, h1] at this
    rw [this]
    obtain ⟨K', rfl⟩ : ∃ K', K = K' + 2 := ⟨K - 2, by omega⟩
    simp only [Nat.add_sub_cancel]
    rw [List.range_succ_eq_map, List.range_succ_eq_map]
    simp only [List.map_cons, List.map_map, Function.comp, List.cons_append,
      List.nil_append, List.cons.injEq]
    refine ⟨h0.symm, h1.symm, ?_⟩
    apply List.map_congr_left
    intro i _
    show chebT L x0 (0 + 2 + i) = chebT L x0 (i + 1 + 1)
    have h : 0 + 2 + i = i + 1 + 1 := by omega
    rw [h]
  · have : K = 1 := by omega
    subst this
    rfl

theorem project_cheb_basis_getD {V D : ℕ} (L : Matrix (Fin V) (Fin V) ℚ)
    (x0 : Matrix (Fin V) (Fin D) ℚ) (K : ℕ) (hK : 1 ≤ K) (k : ℕ) (hk : k < K) :
    (project_cheb_basis L x0 K).getD k 0 = chebT L x0 k := by
  rw [project_cheb_basis_eq_range L x0 K hK]
  rw [List.getD_eq_getElem?_getD]
  simp [hk]

/-! ### Precomputed Chebyshev projector (`graphconv.py`, `precompute_projection`
lines 653-660, and its flattening `permute(0, 2, 1).reshape(K*V, V)` used in
`Conv.__init__`, `ChebConvPrecomputed.__init__` and
`SO3SE3ConvPrecomputer.__init__`). -/

/-- `precompute_projection(lap, K)[k]`: the `k`-th `V×V` slice of the
precomputed projector tensor, `projector[0] = I`, `projector[1] = lap`,
`projector[i] = 2 * lap @ projector[i-1] - projector[i-2]`. -/
def precompute_projection {V : ℕ} (L : Matrix (Fin V) (Fin V) ℚ) :
    ℕ → Matrix (Fin V) (Fin V) ℚ
  | 0 => 1
  | 1 => L
  | k + 2 => (2 : ℚ) • (L * precompute_projection L (k + 1)) - precompute_projection L k

/-- The flattened projector `projector.permute(0, 2, 1).reshape(K*V, V)`:
row `k*V + w`, column `v` holds `projector[k][v][w]`. -/
def projector_flat {V : ℕ} (L : Matrix (Fin V) (Fin V) ℚ) (K : ℕ) :
    Matrix (Fin (K * V)) (Fin V) ℚ :=
  fun i v => precompute_projection L (finDivK i).val v (finModK i)

/-- Runtime-recurrence path of `cheb_conv` read at the flattened row index
`i = k*V + w` (the `view([K*V, …])` layout of the stacked basis). -/
def cheb_runtime_flat {V D : ℕ} (L : Matrix (Fin V) (Fin V) ℚ)
    (x0 : Matrix (Fin V) (Fin D) ℚ) (K : ℕ) (i : Fin (K * V)) (d : Fin D) : ℚ :=
  ((project_cheb_basis L x0 K).getD (finDivK i).val 0) (finModK i) d

theorem precompute_projection_mul_comm {V : ℕ} (L : Matrix (Fin V) (Fin V) ℚ) :
    ∀ k, precompute_projection L k * L = L * precompute_projection L k := by
  intro k
  induction k using Nat.strong_induction_on with
  | _ k ih =>
    match k with
    | 0 => simp [precompute_projection]
    | 1 => simp [precompute_projection]
    | k + 2 =>
      have ih1 := ih (k + 1) (by omega)
      have ih0 := ih k (by omega)
      simp only [precompute_projection, Matrix.sub_mul, Matrix.mul_sub,
        Matrix.smul_mul, Matrix.mul_smul]
      rw [Matrix.mul_assoc, ih1, ← Matrix.mul_assoc, ih0]

theorem precompute_projection_transpose {V : ℕ} (L : Matrix (Fin V) (Fin V) ℚ)
    (hsym : ∀ i j, L i j = L j i) :
    ∀ k, (precompute_projection L k).transpose = precompute_projection L k := by
  have hLt : L.transpose = L := by
    ext i j
    exact hsym j i
  intro k
  induction k using Nat.strong_induction_on with
  | _ k ih =>
    match k with
    | 0 => simp [precompute_projection]
    | 1 => simpa [precompute_projection] using hLt
    | k + 2 =>
      have ih1 := ih (k + 1) (by omega)
      have ih0 := ih k (by omega)
      simp only [precompute_projection, Matrix.transpose_sub, Matrix.transpose_smul,
        Matrix.transpose_mul, hLt, ih1, ih0]
      rw [precompute_projection_mul_comm L (k + 1)]

theorem precompute_projection_apply {V D : ℕ} (L : Matrix (Fin V) (Fin V) ℚ)
    (x0 : Matrix (Fin V) (Fin D) ℚ) :
    ∀ k, precompute_projection L k * x0 = chebT L x0 k := by
  intro k
  induction k using Nat.strong_induction_on with
  | _ k ih =>
    match k with
    | 0 => simp [precompute_projection, chebT]
    | 1 => simp [precompute_projection, chebT]
    | k + 2 =>
      have ih1 := ih (k + 1) (by omega)
      have ih0 := ih k (by omega)
      simp only [precompute_projection, chebT, Matrix.sub_mul, Matrix.smul_mul,
        Matrix.mul_assoc, ih1, ih0]

theorem fin_mul_left_pos {a b : ℕ} (j : Fin (a * b)) : 0 < a := by
  rcases Nat.eq_zero_or_pos a with h | h
  · exact absurd j.isLt (by simp [h])
  · exact h

/-- **C1.** For every Laplacian `L` (`V×V`), signal `x0` (`V×D`) and `K ≥ 1`,
the stacked Chebyshev basis returned by `project_cheb_basis` (and
`project_cheb_basis_dense`) has `K` entries with `basis[0] = x0`,
`basis[1] = L·x0` when `K > 1`, and
`basis[k] = 2·L·basis[k-1] - basis[k-2]` for every `2 ≤ k ≤ K-1`. -/
theorem C1_cheb_recurrence {V D : ℕ} (L : Matrix (Fin V) (Fin V) ℚ)
    (x0 : Matrix (Fin V) (Fin D) ℚ) (K : ℕ) (hK : 1 ≤ K) :
    (project_cheb_basis L x0 K).length = K ∧
    (project_cheb_basis L x0 K).getD 0 0 = x0 ∧
    (1 < K → (project_cheb_basis L x0 K).getD 1 0 = L * x0) ∧
    (∀ k, 2 ≤ k → k ≤ K - 1 →
      (project_cheb_basis L x0 K).getD k 0 =
        (2 : ℚ) • (L * (project_cheb_basis L x0 K).getD (k - 1) 0) -
          (project_cheb_basis L x0 K).getD (k - 2) 0) ∧
    project_cheb_basis_dense L x0 K = project_cheb_basis L x0 K := by
  refine ⟨?_, ?_, ?_, ?_, rfl⟩
  · rw [project_cheb_basis_eq_range L x0 K hK]
    simp
  · rw [project_cheb_basis_getD L x0 K hK 0 (by omega)]
    rfl
  · intro h
    rw [project_cheb_basis_getD L x0 K hK 1 h]
    rfl
  · intro k h2 hk1
    obtain ⟨k', rfl⟩ : ∃ k', k = k' + 2 := ⟨k - 2, by omega⟩
    have hkK : k' + 2 < K := by omega
    rw [project_cheb_basis_getD L x0 K hK (k' + 2) hkK,
      project_cheb_basis_getD L x0 K hK (k' + 2 - 1) (by omega),
      project_cheb_basis_getD L x0 K hK (k' + 2 - 2) (by omega)]
    have e1 : k' + 2 - 1 = k' + 1 := by omega
    have e2 : k' + 2 - 2 = k' := by omega
    rw [e1, e2]
    rfl

/-- Witness for C1 at `V = 2`, `D = 1`, `K = 3`. -/
theorem C1_cheb_recurrence_witness :
    1 ≤ 3 ∧
    ((project_cheb_basis !![(0:ℚ), 1; 1, 0] !![(1:ℚ); 2] 3).length = 3 ∧
    (project_cheb_basis !![(0:ℚ), 1; 1, 0] !![(1:ℚ); 2] 3).getD 0 0 = !![(1:ℚ); 2] ∧
    (1 < 3 → (project_cheb_basis !![(0:ℚ), 1; 1, 0] !![(1:ℚ); 2] 3).getD 1 0 =
      !![(0:ℚ), 1; 1, 0] * !![(1:ℚ); 2]) ∧
    (∀ k, 2 ≤ k → k ≤ 3 - 1 →
      (project_cheb_basis !![(0:ℚ), 1; 1, 0] !![(1:ℚ); 2] 3).getD k 0 =
        (2 : ℚ) • (!![(0:ℚ), 1; 1, 0] *
            (project_cheb_basis !![(0:ℚ), 1; 1, 0] !![(1:ℚ); 2] 3).getD (k - 1) 0) -
          (project_cheb_basis !![(0:ℚ), 1; 1, 0] !![(1:ℚ); 2] 3).getD (k - 2) 0) ∧
    project_cheb_basis_dense !![(0:ℚ), 1; 1, 0] !![(1:ℚ); 2] 3 =
      project_cheb_basis !![(0:ℚ), 1; 1, 0] !![(1:ℚ); 2] 3) :=
  ⟨by omega, C1_cheb_recurrence !![(0:ℚ), 1; 1, 0] !![(1:ℚ); 2] 3 (by omega)⟩

/-- **C2.** For every fixed (symmetric) Laplacian `L`, signal `x0` and order
`K`, applying the precomputed projector (built by `precompute_projection` from
the identity, flattened via `permute(0,2,1).reshape(K*V, V)`) to `x0` by a
single matrix multiply agrees entrywise with the runtime recurrence path of
`cheb_conv` at every flattened row index. -/
theorem C2_precompute_runtime_parity {V D : ℕ} (L : Matrix (Fin V) (Fin V) ℚ)
    (x0 : Matrix (Fin V) (Fin D) ℚ) (K : ℕ) (hsym : ∀ i j, L i j = L j i)
    (i : Fin (K * V)) (d : Fin D) :
    (projector_flat L K * x0) i d = cheb_runtime_flat L x0 K i d := by
  have hK : 1 ≤ K := fin_mul_left_pos i
  have hsymP := precompute_projection_transpose L hsym (finDivK i).val
  unfold cheb_runtime_flat
  rw [project_cheb_basis_getD L x0 K hK _ (finDivK i).isLt]
  rw [← precompute_projection_apply L x0 (finDivK i).val]
  rw [Matrix.mul_apply, Matrix.mul_apply]
  apply Finset.sum_congr rfl
  intro v _
  congr 1
  show precompute_projection L (finDivK i).val v (finModK i) =
    precompute_projection L (finDivK i).val (finModK i) v
  calc precompute_projection L (finDivK i).val v (finModK i)
      = (precompute_projection L (finDivK i).val).transpose (finModK i) v := rfl
    _ = precompute_projection L (finDivK i).val (finModK i) v := by rw [hsymP]

/-- Witness for C2 at `V = 2`, `D = 1`, `K = 2`, row index `3 = 1*V + 1`. -/
theorem C2_precompute_runtime_parity_witness :
    (∀ i j, !![(0:ℚ), 1; 1, 0] i j = !![(0:ℚ), 1; 1, 0] j i) ∧
    (projector_flat !![(0:ℚ), 1; 1, 0] 2 * !![(1:ℚ); 2])
        ⟨3, by decide⟩ ⟨0, by decide⟩ =
      cheb_runtime_flat !![(0:ℚ), 1; 1, 0] !![(1:ℚ); 2] 2
        ⟨3, by decide⟩ ⟨0, by decide⟩ :=
  ⟨by decide, C2_precompute_runtime_parity !![(0:ℚ), 1; 1, 0] !![(1:ℚ); 2] 2
    (by decide) ⟨3, by decide⟩ ⟨0, by decide⟩⟩

/-! ### Dense 3D convolution with `padding='same'`
(`torch.nn.functional.conv3d(inputs, weight, bias, padding='same')`).
Stride 1, dilation 1; total padding `k-1` per axis, `(k-1)/2` on the left. -/

/-- Zero-padded read of a 3D spatial block. -/
def zget {X Y Z : ℕ} (f : Fin X → Fin Y → Fin Z → ℚ) (xi yi zi : ℤ) : ℚ :=
  if hx : 0 ≤ xi ∧ xi < (X : ℤ) then
    if hy : 0 ≤ yi ∧ yi < (Y : ℤ) then
      if hz : 0 ≤ zi ∧ zi < (Z : ℤ) then
        f ⟨xi.toNat, by omega⟩ ⟨yi.toNat, by omega⟩ ⟨zi.toNat, by omega⟩
      else 0
    else 0
  else 0

/-- `conv3d(inp, w, bias, padding='same')` on a `[N, C, X, Y, Z]` input with a
`[O, C, kX, kY, kZ]` kernel. -/
def conv3d_same {N C O X Y Z kX kY kZ : ℕ}
    (inp : Fin N → Fin C → Fin X → Fin Y → Fin Z → ℚ)
    (w : Fin O → Fin C → Fin kX → Fin kY → Fin kZ → ℚ)
    (bias : Fin O → ℚ) :
    Fin N → Fin O → Fin X → Fin Y → Fin Z → ℚ :=
  fun n o x y z =>
    bias o + ∑ c : Fin C, ∑ i : Fin kX, ∑ j : Fin kY, ∑ l : Fin kZ,
      w o c i j l *
        zget (inp n c) ((x : ℤ) + i - ((kX - 1) / 2 : ℕ))
          ((y : ℤ) + j - ((kY - 1) / 2 : ℕ)) ((z : ℤ) + l - ((kZ - 1) / 2 : ℕ))

/-! ### The two fusion layouts of the mixed spherical×spatial convolution
(`graphconv.py`, `se3so3_conv` lines 363-369 and `se3so3_conv_dense` lines
553-559).  The spherical weight `[Fout, Fin, K]` is viewed as
`[Fout, Fin*K, 1, 1, 1]` and expanded over the spatial axes; the spatial
weight `[Fout, Fin, kX, kY, kZ]` is broadcast over the Chebyshev axis either
by `unsqueeze/expand/flatten(1, 2)` or by `repeat_interleave(K, dim=1)`. -/

/-- `weightSph.view([Fout, Fin*K, 1, 1, 1]).expand(-1, -1, kX, kY, kZ)`. -/
def wSph_view_expand {Fout Fi K kX kY kZ : ℕ}
    (wSph : Fin Fout → Fin Fi → Fin K → ℚ) :
    Fin Fout → Fin (Fi * K) → Fin kX → Fin kY → Fin kZ → ℚ :=
  fun o j _ _ _ => wSph o (finDivK j) (finModK j)

/-- `weightSpa[:, :, None]`: unsqueeze a Chebyshev axis of extent 1. -/
def wSpa_unsqueeze {Fout Fi kX kY kZ : ℕ}
    (wSpa : Fin Fout → Fin Fi → Fin kX → Fin kY → Fin kZ → ℚ) :
    Fin Fout → Fin Fi → Fin 1 → Fin kX → Fin kY → Fin kZ → ℚ :=
  fun o f _ x y z => wSpa o f x y z

/-- `.expand(-1, -1, K, -1, -1, -1)`: broadcast the size-1 axis to `K`. -/
def wSpa_expand {Fout Fi kX kY kZ : ℕ} (K : ℕ)
    (w : Fin Fout → Fin Fi → Fin 1 → Fin kX → Fin kY → Fin kZ → ℚ) :
    Fin Fout → Fin Fi → Fin K → Fin kX → Fin kY → Fin kZ → ℚ :=
  fun o f _ x y z => w o f ⟨0, Nat.one_pos⟩ x y z

/-- `.flatten(1, 2)`: merge the `Fin` and `K` axes row-major. -/
def wSpa_flatten12 {Fout Fi K kX kY kZ : ℕ}
    (w : Fin Fout → Fin Fi → Fin K → Fin kX → Fin kY → Fin kZ → ℚ) :
    Fin Fout → Fin (Fi * K) → Fin kX → Fin kY → Fin kZ → ℚ :=
  fun o j => w o (finDivK j) (finModK j)

/-- The "expand" layout:
`weightSpa[:, :, None].expand(-1, -1, K, -1, -1, -1).flatten(1, 2)`. -/
def wSpa_expand_layout {Fout Fi kX kY kZ : ℕ} (K : ℕ)
    (wSpa : Fin Fout → Fin Fi → Fin kX → Fin kY → Fin kZ → ℚ) :
    Fin Fout → Fin (Fi * K) → Fin kX → Fin kY → Fin kZ → ℚ :=
  wSpa_flatten12 (wSpa_expand K (wSpa_unsqueeze wSpa))

/-- The "repeat-interleave" layout: `weightSpa.repeat_interleave(K, dim=1)`,
whose element `j` along axis 1 is element `j / K` of the input. -/
def wSpa_repeat_interleave {Fout Fi kX kY kZ : ℕ} (K : ℕ)
    (wSpa : Fin Fout → Fin Fi → Fin kX → Fin kY → Fin kZ → ℚ) :
    Fin Fout → Fin (Fi * K) → Fin kX → Fin kY → Fin kZ → ℚ :=
  fun o j => wSpa o (finDivK j)

/-- Fused kernel `weight = wSph * wSpa` with the "expand" layout. -/
def fused_weight_expand {Fout Fi K kX kY kZ : ℕ}
    (wSph : Fin Fout → Fin Fi → Fin K → ℚ)
    (wSpa : Fin Fout → Fin Fi → Fin kX → Fin kY → Fin kZ → ℚ) :
    Fin Fout → Fin (Fi * K) → Fin kX → Fin kY → Fin kZ → ℚ :=
  fun o j x y z => wSph_view_expand wSph o j x y z * wSpa_expand_layout K wSpa o j x y z

/-- Fused kernel `weight = wSph * wSpa` with the "repeat-interleave" layout. -/
def fused_weight_repeat {Fout Fi K kX kY kZ : ℕ}
    (wSph : Fin Fout → Fin Fi → Fin K → ℚ)
    (wSpa : Fin Fout → Fin Fi → Fin kX → Fin kY → Fin kZ → ℚ) :
    Fin Fout → Fin (Fi * K) → Fin kX → Fin kY → Fin kZ → ℚ :=
  fun o j x y z => wSph_view_expand wSph o j x y z * wSpa_repeat_interleave K wSpa o j x y z

/-- **C3.** The "expand" and "repeat-interleave" fusion layouts of the mixed
spherical×spatial convolution produce the identical fused kernel, and hence
identical convolution outputs for every input and bias. -/
theorem C3_fusion_layout_equiv {Fout Fi K kX kY kZ : ℕ}
    (wSph : Fin Fout → Fin Fi → Fin K → ℚ)
    (wSpa : Fin Fout → Fin Fi → Fin kX → Fin kY → Fin kZ → ℚ) :
    fused_weight_expand wSph wSpa = fused_weight_repeat wSph wSpa ∧
    ∀ (N X Y Z : ℕ) (inp : Fin N → Fin (Fi * K) → Fin X → Fin Y → Fin Z → ℚ)
      (bias : Fin Fout → ℚ),
      conv3d_same inp (fused_weight_expand wSph wSpa) bias =
        conv3d_same inp (fused_weight_repeat wSph wSpa) bias := by
  have h : fused_weight_expand wSph wSpa = fused_weight_repeat wSph wSpa := by
    funext o j x y z
    rfl
  exact ⟨h, fun N X Y Z inp bias => by rw [h]⟩

/-! ### Isotropic selection mask (`graphconv.py`, `SO3SE3Conv.get_index`
lines 291-299; the same code appears in `SpatialConv`, `SO3SE3ConvPrecomputer`
and `SpatialConvPrecomputed`).

`get_index` computes `x = arange(size) - (size-1)/2`, the Euclidean distance
of every offset `(a, b, c)` from the kernel center, buckets the distances by
`np.unique` (sorted distinct values, inverse indices), and sets
`weight_tmp[o, f, a, b, c, i] = 1` iff offset `(a, b, c)` falls in bucket `i`.
We track squared distances (exact rationals): since `sqrt` is strictly
monotone on nonnegative reals, the sorted distinct squared distances are in
bijection with the sorted distinct distances, with identical bucket
indices. -/

/-- `x[i] = i - (size - 1)/2`, the offset of grid index `i` from the center. -/
def kernel_coord (size : ℕ) (i : Fin size) : ℚ :=
  (i : ℚ) - ((size : ℚ) - 1) / 2

/-- Squared Euclidean distance of offset `(a, b, c)` from the kernel center
(`distance[a, b, c]² = x[c]² + x[b]² + x[a]²` in the source). -/
def dist2 (size : ℕ) (a b c : Fin size) : ℚ :=
  kernel_coord size c ^ 2 + kernel_coord size b ^ 2 + kernel_coord size a ^ 2

/-- All `size³` squared distances, in row-major offset order. -/
def distance_list (size : ℕ) : List ℚ :=
  (List.finRange size).flatMap fun a =>
    (List.finRange size).flatMap fun b =>
      (List.finRange size).map fun c => dist2 size a b c

/-- `np.unique(distance)`: the sorted list of distinct (squared) distances. -/
def unique_distances (size : ℕ) : List ℚ :=
  List.insertionSort (· ≤ ·) (distance_list size).dedup

/-- Number of radial buckets (`len(unique)` in the source). -/
def num_buckets (size : ℕ) : ℕ := (unique_distances size).length

/-- `ind[a, b, c]`: the bucket of offset `(a, b, c)`, i.e. the index of its
distance in the sorted distinct distances (`np.unique(..., return_inverse)`).
-/
def bucket_index (size : ℕ) (a b c : Fin size) : ℕ :=
  (unique_distances size).indexOf (dist2 size a b c)

/-- The isotropic selection mask `weight_tmp[o, f, a, b, c, i]`
(`1` iff `ind[a, b, c] == i`, else the `torch.zeros` initialization). -/
def weight_tmp_mask (Fout Fi size : ℕ) :
    Fin Fout → Fin Fi → Fin size → Fin size → Fin size → ℕ → ℚ :=
  fun _ _ a b c i => if bucket_index size a b c = i then 1 else 0

theorem dist2_mem_distance_list (size : ℕ) (a b c : Fin size) :
    dist2 size a b c ∈ distance_list size := by
  unfold distance_list
  rw [List.mem_flatMap]
  refine ⟨a, List.mem_finRange a, ?_⟩
  rw [List.mem_flatMap]
  refine ⟨b, List.mem_finRange b, ?_⟩
  exact List.mem_map_of_mem _ (List.mem_finRange c)

theorem dist2_mem_unique_distances (size : ℕ) (a b c : Fin size) :
    dist2 size a b c ∈ unique_distances size := by
  unfold unique_distances
  rw [List.mem_insertionSort, List.mem_dedup]
  exact dist2_mem_distance_list size a b c

theorem bucket_index_lt (size : ℕ) (a b c : Fin size) :
    bucket_index size a b c < num_buckets size :=
  List.indexOf_lt_length.2 (dist2_mem_unique_distances size a b c)

theorem unique_distances_nodup (size : ℕ) : (unique_distances size).Nodup :=
  ((List.perm_insertionSort (· ≤ ·) (distance_list size).dedup).nodup_iff).2
    (List.nodup_dedup _)

/-- **C4.** For every kernel size `s ≥ 1`, the isotropic mask built by
`get_index` assigns exactly one active radial bucket to each offset: the sum
over the bucket axis is `1` everywhere, the distinct-distance list is sorted
without duplicates, and the mask is active at bucket `i` exactly when the
`i`-th sorted distinct distance is this offset's distance from the center. -/
theorem C4_iso_mask_one_hot (s Fout Fi : ℕ) (hs : 1 ≤ s) :
    (∀ (o : Fin Fout) (f : Fin Fi) (a b c : Fin s),
      (∑ i : Fin (num_buckets s), weight_tmp_mask Fout Fi s o f a b c i.val) = 1) ∧
    (unique_distances s).Sorted (· ≤ ·) ∧
    (unique_distances s).Nodup ∧
    (∀ (o : Fin Fout) (f : Fin Fi) (a b c : Fin s) (i : Fin (num_buckets s)),
      weight_tmp_mask Fout Fi s o f a b c i.val = 1 ↔
        (unique_distances s).getD i.val 0 = dist2 s a b c) := by
  refine ⟨?_, List.sorted_insertionSort _ _, unique_distances_nodup s, ?_⟩
  · intro o f a b c
    have hlt := bucket_index_lt s a b c
    calc (∑ i : Fin (num_buckets s), weight_tmp_mask Fout Fi s o f a b c i.val)
        = ∑ i : Fin (num_buckets s),
            (if i = ⟨bucket_index s a b c, hlt⟩ then (1 : ℚ) else 0) := by
          apply Finset.sum_congr rfl
          intro i _
          unfold weight_tmp_mask
          apply if_congr _ rfl rfl
          constructor
          · intro h
            exact Fin.ext h.symm
          · intro h
            exact (congrArg Fin.val h).symm
      _ = 1 := by
          exact Fintype.sum_ite_eq'
            (⟨bucket_index s a b c, hlt⟩ : Fin (num_buckets s)) (fun _ => (1 : ℚ))
  · intro o f a b c i
    have hnd := unique_distances_nodup s
    have hmem := dist2_mem_unique_distances s a b c
    unfold weight_tmp_mask
    constructor
    · intro h
      have hcond : bucket_index s a b c = i.val := by
        by_contra hc
        rw [if_neg hc] at h
        exact absurd h (by norm_num)
      have hb : (unique_distances s).getD (bucket_index s a b c) 0 =
          dist2 s a b c := by
        unfold bucket_index
        rw [List.getD_eq_getElem _ _ (List.indexOf_lt_length.2 hmem)]
        exact List.getElem_indexOf (List.indexOf_lt_length.2 hmem)
      rw [← hcond]
      exact hb
    · intro h
      have : bucket_index s a b c = i.val := by
        unfold bucket_index
        rw [← h, List.getD_eq_getElem _ _ i.isLt]
        exact List.indexOf_getElem hnd i.val i.isLt
      rw [if_pos this]

/-- Witness for C4 at `s = 2` (all eight offsets share the single bucket of
squared distance `3/4`). -/
theorem C4_iso_mask_one_hot_witness :
    1 ≤ 2 ∧
    ((∀ (o : Fin 1) (f : Fin 1) (a b c : Fin 2),
      (∑ i : Fin (num_buckets 2), weight_tmp_mask 1 1 2 o f a b c i.val) = 1) ∧
    (unique_distances 2).Sorted (· ≤ ·) ∧
    (unique_distances 2).Nodup ∧
    (∀ (o : Fin 1) (f : Fin 1) (a b c : Fin 2) (i : Fin (num_buckets 2)),
      weight_tmp_mask 1 1 2 o f a b c i.val = 1 ↔
        (unique_distances 2).getD i.val 0 = dist2 2 a b c)) :=
  ⟨by omega, C4_iso_mask_one_hot 2 1 1 (by omega)⟩

/-! ### Spherical-harmonic degree derived from the direction count
(`sampling.py`, `Sampling.__init__` lines 358-376):
`sh_degree = 2*int((np.sqrt(8*vectors.shape[0]-7) - 3) / 4)`.

For `N ≥ 1` the float expression `(sqrt(8N-7) - 3)/4` is at least `-1/2`, so
Python's truncating `int()` agrees with the `ℕ`-valued
`(Nat.sqrt (8N-7) - 3) / 4` (truncated subtraction, floor division). -/

/-- The degree the code derives from the number `N` of directions. -/
def derived_sh_degree (N : ℕ) : ℕ := 2 * ((Nat.sqrt (8 * N - 7) - 3) / 4)

/-- `(L+1)(L/2+1)`: number of symmetric SH coefficients up to degree `L`
(`(sh_degree+1)*(sh_degree//2+1)` in the source). -/
def coefCount (L : ℕ) : ℕ := (L + 1) * (L / 2 + 1)

theorem coefCount_two_mul (r : ℕ) :
    coefCount (2 * r) = 2 * (r * r) + 3 * r + 1 := by
  unfold coefCount
  have h : 2 * r / 2 = r := Nat.mul_div_cancel_left r (by omega)
  rw [h]
  ring

theorem derived_m_le_iff (N m : ℕ) (hN : 1 ≤ N) :
    m ≤ (Nat.sqrt (8 * N - 7) - 3) / 4 ↔
      (m = 0 ∨ 2 * (m * m) + 3 * m + 2 ≤ N) := by
  rw [Nat.le_div_iff_mul_le (by omega : 0 < 4)]
  rcases Nat.eq_zero_or_pos m with rfl | hm
  · simp
  · have h1 : m * 4 ≤ Nat.sqrt (8 * N - 7) - 3 ↔
        m * 4 + 3 ≤ Nat.sqrt (8 * N - 7) := by omega
    rw [h1, Nat.le_sqrt]
    have hexp : (m * 4 + 3) * (m * 4 + 3) = 16 * (m * m) + 24 * m + 9 := by ring
    rw [hexp]
    generalize m * m = q
    omega

/-- **C5, counterexample.** At `N = 6` the code derives degree `0`, yet `2` is
an even degree with `(2+1)(2/2+1) = 6 ≤ 6`; so the derived degree is not the
largest even `L` with `(L+1)(L/2+1) ≤ N`. -/
theorem C5_counterexample_N6 :
    derived_sh_degree 6 = 0 ∧ Even 2 ∧ coefCount 2 ≤ 6 ∧
      ¬(2 ≤ derived_sh_degree 6) := by
  have h41 : Nat.sqrt (8 * 6 - 7) = 6 := (Nat.eq_sqrt.2 (by norm_num)).symm
  have hD : derived_sh_degree 6 = 0 := by
    unfold derived_sh_degree
    rw [h41]
  refine ⟨hD, ⟨1, by norm_num⟩, ?_, by omega⟩
  unfold coefCount
  norm_num

/-- **C5, amended.** For `N ≥ 1` the derived degree is the largest even `L`
with `(L+1)(L/2+1) ≤ max (N-1) 1` — i.e. the coefficient count stays strictly
below `N` whenever `N ≥ 2` (and equals 1 at `N = 1`); in particular it never
exceeds `N`. -/
theorem C5_amended_max_even_degree (N : ℕ) (hN : 1 ≤ N) :
    Even (derived_sh_degree N) ∧
    coefCount (derived_sh_degree N) ≤ max (N - 1) 1 ∧
    coefCount (derived_sh_degree N) ≤ N ∧
    ∀ L, Even L → coefCount L ≤ max (N - 1) 1 → L ≤ derived_sh_degree N := by
  have key : ∀ m', m' ≤ (Nat.sqrt (8 * N - 7) - 3) / 4 ↔
      (m' = 0 ∨ 2 * (m' * m') + 3 * m' + 2 ≤ N) :=
    fun m' => derived_m_le_iff N m' hN
  have hD : derived_sh_degree N = 2 * ((Nat.sqrt (8 * N - 7) - 3) / 4) := rfl
  set q := (Nat.sqrt (8 * N - 7) - 3) / 4 with hq
  have hself := (key q).1 (le_refl q)
  have hmax : coefCount (derived_sh_degree N) ≤ max (N - 1) 1 := by
    rw [hD, coefCount_two_mul]
    rcases hself with h0 | hle
    · rw [h0]
      omega
    · generalize q * q = qq at hle ⊢
      omega
  refine ⟨⟨q, by rw [hD]; ring⟩, hmax, by omega, ?_⟩
  intro L hL hcc
  obtain ⟨r, rfl⟩ : ∃ r, L = 2 * r := by
    obtain ⟨r, hr⟩ := hL
    exact ⟨r, by omega⟩
  rw [coefCount_two_mul] at hcc
  rw [hD]
  have hrq : r ≤ q := by
    apply (key r).2
    rcases Nat.eq_zero_or_pos r with rfl | hr
    · exact Or.inl rfl
    · right
      have hge : 1 * 1 ≤ r * r := Nat.mul_le_mul hr hr
      generalize r * r = rr at hcc hge ⊢
      omega
  omega

/-- Witness for the amended C5 at `N = 7` (derived degree `2`). -/
theorem C5_amended_max_even_degree_witness :
    1 ≤ 7 ∧
    (Even (derived_sh_degree 7) ∧
    coefCount (derived_sh_degree 7) ≤ max (7 - 1) 1 ∧
    coefCount (derived_sh_degree 7) ≤ 7 ∧
    ∀ L, Even L → coefCount L ≤ max (7 - 1) 1 → L ≤ derived_sh_degree 7) :=
  ⟨by omega, C5_amended_max_even_degree 7 (by omega)⟩

/-! ### Patch-size schedule (`sampling.py`,
`HealpixSampling.get_healpix_poolings` lines 160-175 and 208-219).

When the patch shrinks the code executes
`patch_size = int(((patch_size - 2) / 2) * (patch_size%2) + patch_size / 2)`
with Python float (exact) division; when `patch_size == 1` no update runs. -/

/-- The update `int(((s - 2) / 2) * (s % 2) + s / 2)` (exact division,
truncation toward zero; the value is a nonnegative integer for `s ≥ 1`). -/
def patch_update (s : ℕ) : ℕ :=
  (⌊(((s : ℚ) - 2) / 2) * ((s % 2 : ℕ) : ℚ) + (s : ℚ) / 2⌋).toNat

/-- One depth transition of the spatial patch size: unchanged at `1`,
otherwise updated by `patch_update`. -/
def patch_transition (s : ℕ) : ℕ := if s = 1 then s else patch_update s

theorem patch_update_eq (s : ℕ) (hs : 2 ≤ s) :
    patch_update s = if s % 2 = 1 then s - 1 else s / 2 := by
  unfold patch_update
  have hval : (((s : ℚ) - 2) / 2) * ((s % 2 : ℕ) : ℚ) + (s : ℚ) / 2 =
      ((if s % 2 = 1 then s - 1 else s / 2 : ℕ) : ℚ) := by
    rcases Nat.even_or_odd s with he | ho
    · have h0 : s % 2 = 0 := Nat.even_iff.1 he
      rw [h0, if_neg (by omega)]
      obtain ⟨t, rfl⟩ := he
      have ht : (t + t) / 2 = t := by omega
      rw [ht]
      push_cast
      ring
    · have h1 : s % 2 = 1 := Nat.odd_iff.1 ho
      rw [h1, if_pos rfl]
      obtain ⟨t, rfl⟩ := ho
      have ht : 2 * t + 1 - 1 = 2 * t := by omega
      rw [ht]
      push_cast
      ring
  rw [hval, Int.floor_natCast]
  exact Int.toNat_natCast _

/-- **C6, counterexample.** At patch size `3` the code produces `2`
(`int(0.5*1 + 1.5)`), while the claimed floor formula
`floor((s-2)/2)·(s mod 2) + floor(s/2)` gives `1`. -/
theorem C6_counterexample_patch3 :
    patch_transition 3 = 2 ∧ (3 - 2) / 2 * (3 % 2) + 3 / 2 = (1 : ℕ) ∧
      (2 : ℕ) ≠ 1 := by
  refine ⟨?_, by norm_num, by omega⟩
  have h := patch_update_eq 3 (by omega)
  unfold patch_transition
  rw [if_neg (by omega : ¬(3 : ℕ) = 1), h]
  norm_num

/-- **C6, amended.** For every patch size `s ≥ 2` the shrinking transition
uses exact division then truncation: an odd `s` maps to `s - 1` and an even
`s` to `s / 2`; a patch size of `1` is left unchanged. -/
theorem C6_amended_patch_recurrence (s : ℕ) (hs : 2 ≤ s) :
    patch_transition s = (if s % 2 = 1 then s - 1 else s / 2) ∧
      patch_transition 1 = 1 := by
  refine ⟨?_, rfl⟩
  unfold patch_transition
  rw [if_neg (by omega : ¬s = 1)]
  exact patch_update_eq s hs

/-- Witness for the amended C6 at `s = 4`. -/
theorem C6_amended_patch_recurrence_witness :
    2 ≤ 4 ∧
    (patch_transition 4 = (if 4 % 2 = 1 then 4 - 1 else 4 / 2) ∧
      patch_transition 1 = 1) :=
  ⟨by omega, C6_amended_patch_recurrence 4 (by omega)⟩

/-! ### Degenerate constant-shell sampling (`sampling.py`,
`Sampling.__init__` lines 363-366).

With `constant=True` the least-squares solve is bypassed and the code sets
`S2SH = np.ones((V, 1)) * math.sqrt(4*pi) / V` and `SH2S = zeros(...)` with
`SH2S[0] = 1 / math.sqrt(4*pi)`.  The irrational constant
`math.sqrt(4*pi)` is abstracted as a parameter `c`. -/

/-- `S2SH` of the constant branch: every entry is `c / N`. -/
def constant_S2SH (c : ℚ) (N : ℕ) : Matrix (Fin N) (Fin 1) ℚ :=
  fun _ _ => c / (N : ℚ)

/-- `SH2S` of the constant branch: zero matrix of shape
`[(d+1)(d/2+1), N]` whose row `0` is filled with `1 / c`. -/
def constant_SH2S (c : ℚ) (N d : ℕ) : Matrix (Fin (coefCount d)) (Fin N) ℚ :=
  fun i _ => if i.val = 0 then 1 / c else 0

/-- **C7.** A `Sampling` built with `constant=True` over `N = 6` directions
(degree derived from the vertex count) has `S2SH` of shape `[6, 1]` with
every entry `c/6` and `SH2S` of shape `[1, 6]` with every entry `1/c`, where
`c` abstracts the computed `sqrt(4π)`; the derived degree is `0`, so `SH2S`
has a single row. -/
theorem C7_constant_shell_matrices (c : ℚ) :
    derived_sh_degree 6 = 0 ∧
    coefCount (derived_sh_degree 6) = 1 ∧
    (∀ (i : Fin 6) (j : Fin 1), constant_S2SH c 6 i j = c / 6) ∧
    (∀ (i : Fin (coefCount (derived_sh_degree 6))) (j : Fin 6),
      constant_SH2S c 6 (derived_sh_degree 6) i j = 1 / c) := by
  have h41 : Nat.sqrt (8 * 6 - 7) = 6 := (Nat.eq_sqrt.2 (by norm_num)).symm
  have hD : derived_sh_degree 6 = 0 := by
    unfold derived_sh_degree
    rw [h41]
  have hC : coefCount (derived_sh_degree 6) = 1 := by rw [hD]; rfl
  refine ⟨hD, hC, fun i j => by norm_num [constant_S2SH], ?_⟩
  intro i j
  have hi : i.val = 0 := by
    have h1 : i.val < coefCount (derived_sh_degree 6) := i.isLt
    omega
  unfold constant_SH2S
  rw [if_pos hi]

/-! ### Checkpoint state (`graphconv.py`, `Conv.state_dict` lines 46-58,
`ChebConvPrecomputed.state_dict` lines 693-705,
`SO3SE3ConvPrecomputer.state_dict` lines 802-814).

The overridden `state_dict` deletes exactly the keys that end with
`"laplacian"` (resp. `"projector"`).  The keys of a `Conv` wrapping a mixed
`SO3SE3Conv` with `isoSpa=True` and bias are its own `laplacian` buffer and
the submodule's parameters `weightSph`, `weightSpa`, `bias` and registered
buffer `weight_tmp` (PyTorch lists a module's parameters before its
buffers). -/

/-- `str.endswith(suffix)` on key strings. -/
def key_ends_with (key suffix : String) : Bool :=
  suffix.data.isSuffixOf key.data

/-- `Conv.state_dict`: every key except those ending in `"laplacian"`. -/
def conv_state_dict (keys : List String) : List String :=
  keys.filter (fun k => !(key_ends_with k "laplacian"))

/-- `ChebConvPrecomputed.state_dict` and `SO3SE3ConvPrecomputer.state_dict`:
every key except those ending in `"projector"`. -/
def precomputed_state_dict (keys : List String) : List String :=
  keys.filter (fun k => !(key_ends_with k "projector"))

/-- Raw key list of a `Conv` module with `conv_name='mixed'`, `isoSpa=True`,
`bias=True`. -/
def conv_mixed_keys : List String :=
  ["laplacian", "conv.weightSph", "conv.weightSpa", "conv.bias",
    "conv.weight_tmp"]

/-- Raw key list of a `ChebConvPrecomputed` module with bias. -/
def chebconv_precomputed_keys : List String :=
  ["weight", "bias", "projector"]

/-- **C8, counterexample.** The isotropic selection mask buffer
`conv.weight_tmp` survives `Conv.state_dict`: only keys ending in
`"laplacian"` are deleted, so the claim that the mask is excluded from
checkpoints is false. -/
theorem C8_counterexample_mask_saved :
    "conv.weight_tmp" ∈ conv_state_dict conv_mixed_keys ∧
    "laplacian" ∉ conv_state_dict conv_mixed_keys := by decide

/-- **C8, amended.** The saved state excludes exactly the Laplacian buffer
(and the precomputed projector buffer for the precomputed layers) while
retaining every weight and bias parameter — and also retains the isotropic
selection mask buffer `weight_tmp`. -/
theorem C8_amended_state_dict :
    conv_state_dict conv_mixed_keys =
      ["conv.weightSph", "conv.weightSpa", "conv.bias", "conv.weight_tmp"] ∧
    precomputed_state_dict chebconv_precomputed_keys = ["weight", "bias"] ∧
    (∀ k ∈ conv_state_dict conv_mixed_keys,
      key_ends_with k "laplacian" = false) ∧
    (∀ k ∈ precomputed_state_dict chebconv_precomputed_keys,
      key_ends_with k "projector" = false) := by decide

/-! ### Spherical-harmonic matrix validation (`sampling.py`, `_sh_matrix`
lines 429-450): `ValueError` for `with_order ∉ {0, 1}` and for an odd degree
in symmetric mode; otherwise the matrices are built with the branch-selected
`num_coefficients`. -/

/-- The validation gates and `num_coefficients` computation of `_sh_matrix`.
Success carries the number of coefficient rows of the matrices built by the
remainder of the function. -/
def sh_matrix_validated (sh_degree with_order : ℕ) (symmetric : Bool) :
    Except String ℕ :=
  if with_order ≠ 0 ∧ with_order ≠ 1 then
    Except.error "with_order must be 0 or 1"
  else if symmetric = true ∧ sh_degree % 2 ≠ 0 then
    Except.error "sh_degree must be even or symmetric must be False"
  else
    Except.ok
      (if symmetric = true then
        if with_order = 1 then (sh_degree + 1) * (sh_degree / 2 + 1)
        else sh_degree / 2 + 1
      else
        if with_order = 1 then (sh_degree + 1) * (sh_degree + 1)
        else sh_degree + 1)

/-- **C9.** For a valid `with_order`, building the SH transform matrices in
symmetric mode fails with a validation error exactly when the degree is odd,
and always succeeds when symmetric mode is off. -/
theorem C9_odd_degree_rejected (d wo : ℕ) (hwo : wo = 0 ∨ wo = 1) :
    ((∃ msg, sh_matrix_validated d wo true = Except.error msg) ↔ d % 2 = 1) ∧
    (∃ n, sh_matrix_validated d wo false = Except.ok n) := by
  have hw : ¬(wo ≠ 0 ∧ wo ≠ 1) := by
    rcases hwo with rfl | rfl <;> simp
  unfold sh_matrix_validated
  rw [if_neg hw, if_neg hw]
  constructor
  · constructor
    · intro ⟨msg, hmsg⟩
      by_contra hodd
      have hcond : ¬(true = true ∧ d % 2 ≠ 0) := by
        intro ⟨_, h2⟩
        exact h2 (by omega)
      rw [if_neg hcond] at hmsg
      exact Except.noConfusion hmsg
    · intro hodd
      refine ⟨"sh_degree must be even or symmetric must be False", ?_⟩
      rw [if_pos ⟨rfl, by omega⟩]
  · have hcond : ¬(false = true ∧ d % 2 ≠ 0) := by
      intro ⟨h1, _⟩
      exact Bool.noConfusion h1
    rw [if_neg hcond]
    exact ⟨_, rfl⟩

/-- Witness for C9 at `d = 3`, `with_order = 1`. -/
theorem C9_odd_degree_rejected_witness :
    ((1 : ℕ) = 0 ∨ (1 : ℕ) = 1) ∧
    (((∃ msg, sh_matrix_validated 3 1 true = Except.error msg) ↔ 3 % 2 = 1) ∧
    (∃ n, sh_matrix_validated 3 1 false = Except.ok n)) :=
  ⟨Or.inr rfl, C9_odd_degree_rejected 3 1 (Or.inr rfl)⟩

/-! ### Precomputed mixed convolution (`graphconv.py`,
`SO3SE3ConvPrecomputer.se3so3_conv` lines 848-898).

The forward pass multiplies the flattened projector into the input
(`torch.mm(self.projector, inputs)` plus permute/reshape), builds the fused
kernel — `wSph * wSpa` when `kernel_sizeSpa > 1`, the bare `weightSph`
(shape `[Fout, Fin*K, 1, 1, 1]`) otherwise — runs `conv3d` with bias and
`'same'` padding over the `B*V` batch axis, and reshapes back to
`[B, Fout, V, X, Y, Z]`. -/

/-- The Chebyshev feature map `[B*V, Fin*K, X, Y, Z]`: element
`(b*V + v, f*K + k, x, y, z)` equals
`Σ_{w} projector[k*V + v, w] * inputs[b, f, w, x, y, z]`. -/
def cheb_features {B Fi V X Y Z K : ℕ}
    (projector : Matrix (Fin (K * V)) (Fin V) ℚ)
    (inputs : Fin B → Fin Fi → Fin V → Fin X → Fin Y → Fin Z → ℚ) :
    Fin (B * V) → Fin (Fi * K) → Fin X → Fin Y → Fin Z → ℚ :=
  fun bv fk x y z =>
    ∑ w : Fin V,
      projector (finCombine (finModK fk) (finModK bv)) w *
        inputs (finDivK bv) (finDivK fk) w x y z

/-- `torch.sum(self.weight_tmp * self.weightSpa, -1)`: collapse the compact
isotropic weights onto the full spatial kernel through the selection mask. -/
def iso_collapse {Fout Fi kS R : ℕ}
    (mask : Fin Fout → Fin Fi → Fin kS → Fin kS → Fin kS → ℕ → ℚ)
    (weightSpa : Fin Fout → Fin Fi → Fin R → ℚ) :
    Fin Fout → Fin Fi → Fin kS → Fin kS → Fin kS → ℚ :=
  fun o f x y z => ∑ r : Fin R, mask o f x y z r.val * weightSpa o f r

/-- Fused kernel of the `kernel_sizeSpa > 1` branch:
`self.weightSph.expand(-1, -1, kS, kS, kS) *
 weightSpa[:, :, None].expand(-1, -1, K, -1, -1, -1).flatten(1, 2)`
(here `weightSph` is already laid out as `[Fout, Fin*K, 1, 1, 1]`). -/
def fused_weight_precomp {Fout Fi K kS : ℕ}
    (weightSph : Fin Fout → Fin (Fi * K) → ℚ)
    (weightSpa : Fin Fout → Fin Fi → Fin kS → Fin kS → Fin kS → ℚ) :
    Fin Fout → Fin (Fi * K) → Fin kS → Fin kS → Fin kS → ℚ :=
  fun o j x y z => weightSph o j * weightSpa o (finDivK j) x y z

/-- `SO3SE3ConvPrecomputer.se3so3_conv`.  The layer stores one spatial weight
whose shape depends on `isoSpa`; we pass both candidate tensors and select by
the flag, mirroring the two constructor branches. -/
def se3so3_conv_precomputed {B Fi V X Y Z K kS R Fout : ℕ}
    (isoSpa : Bool)
    (projector : Matrix (Fin (K * V)) (Fin V) ℚ)
    (weightSph : Fin Fout → Fin (Fi * K) → ℚ)
    (mask : Fin Fout → Fin Fi → Fin kS → Fin kS → Fin kS → ℕ → ℚ)
    (weightSpaIso : Fin Fout → Fin Fi → Fin R → ℚ)
    (weightSpaFull : Fin Fout → Fin Fi → Fin kS → Fin kS → Fin kS → ℚ)
    (bias : Fin Fout → ℚ)
    (inputs : Fin B → Fin Fi → Fin V → Fin X → Fin Y → Fin Z → ℚ) :
    Fin B → Fin Fout → Fin V → Fin X → Fin Y → Fin Z → ℚ :=
  fun b o v x y z =>
    if 1 < kS then
      conv3d_same (cheb_features projector inputs)
        (fused_weight_precomp weightSph
          (if isoSpa then iso_collapse mask weightSpaIso else weightSpaFull))
        bias (finCombine b v) o x y z
    else
      conv3d_same (cheb_features projector inputs)
        (fun o' j (_ : Fin 1) (_ : Fin 1) (_ : Fin 1) => weightSph o' j)
        bias (finCombine b v) o x y z

/-- **C10.** With `kernel_sizeSpa = 1` the fused kernel is the spherical
weight alone, so two runs of `SO3SE3ConvPrecomputer.se3so3_conv` differing
only in the spatial weight produce identical outputs on every input. -/
theorem C10_spatial_weight_no_influence {B Fi V X Y Z K R Fout : ℕ}
    (kS : ℕ) (hk : kS = 1) (isoSpa : Bool)
    (projector : Matrix (Fin (K * V)) (Fin V) ℚ)
    (weightSph : Fin Fout → Fin (Fi * K) → ℚ)
    (mask : Fin Fout → Fin Fi → Fin kS → Fin kS → Fin kS → ℕ → ℚ)
    (w1 w2 : Fin Fout → Fin Fi → Fin R → ℚ)
    (wf1 wf2 : Fin Fout → Fin Fi → Fin kS → Fin kS → Fin kS → ℚ)
    (bias : Fin Fout → ℚ)
    (inputs : Fin B → Fin Fi → Fin V → Fin X → Fin Y → Fin Z → ℚ) :
    se3so3_conv_precomputed isoSpa projector weightSph mask w1 wf1 bias inputs =
      se3so3_conv_precomputed isoSpa projector weightSph mask w2 wf2 bias
        inputs := by
  subst hk
  funext b o v x y z
  unfold se3so3_conv_precomputed
  rw [if_neg (by omega : ¬(1 : ℕ) < 1), if_neg (by omega : ¬(1 : ℕ) < 1)]

/-- Witness for C10 with all axes of extent 1 and two different spatial
weights (`3` versus `7`). -/
theorem C10_spatial_weight_no_influence_witness :
    (1 : ℕ) = 1 ∧
    @se3so3_conv_precomputed 1 1 1 1 1 1 1 1 1 1 true 1 (fun _ _ => 2)
        (fun _ _ _ _ _ _ => 1) (fun _ _ _ => 3) (fun _ _ _ _ _ => 3)
        (fun _ => 1) (fun _ _ _ _ _ _ => 5) =
      @se3so3_conv_precomputed 1 1 1 1 1 1 1 1 1 1 true 1 (fun _ _ => 2)
        (fun _ _ _ _ _ _ => 1) (fun _ _ _ => 7) (fun _ _ _ _ _ => 7)
        (fun _ => 1) (fun _ _ _ _ _ _ => 5) :=
  ⟨rfl, C10_spatial_weight_no_influence 1 rfl true 1 (fun _ _ => 2)
    (fun _ _ _ _ _ _ => 1) (fun _ _ _ => 3) (fun _ _ _ => 7)
    (fun _ _ _ _ _ => 3) (fun _ _ _ _ _ => 7) (fun _ => 1)
    (fun _ _ _ _ _ _ => 5)⟩
